import Mathlib

/-!
Shallow embedding of the pizza-eating backend (`src/app.py`).

The program is a FastAPI service over a Firestore document store with three
collections: `users`, `pizza_history` and `leaderboard`.  We model each
collection as an association list from document id to document data, the
whole store as a `DB` record, and each route handler as a pure function
`DB → ... → DB × Except HTTPError String` (a raised `HTTPException` aborts
the handler before any write, so an error outcome leaves the store as it
was; the handler's return value is the success message).  Non-determinism
supplied by the environment — freshly generated document ids and
`datetime.now()` — is passed in as explicit parameters.  Firestore's
`order_by` on a query is modelled as a deterministic total-order sort
(`List.insertionSort`) on the queried field.
-/

namespace PizzaApp

/-- A stored user document: profile fields from the `User` pydantic model
plus the economy fields added by `create_user`. -/
structure Account where
  name : String
  age : Int
  gender : String
  coins : Int
  pizzaSlices : Int
  pizzasEaten : Int
deriving Repr, DecidableEq

/-- A document of the `pizza_history` collection, as written by `log_pizza`:
`{"userId": ..., "timestamp": datetime.now()}` plus its document id.
Timestamps are modelled as integer clock ticks. -/
structure HistoryRecord where
  id : String
  userId : String
  timestamp : Int
deriving Repr, DecidableEq

/-- A document of the `leaderboard` collection, as written by
`update_leaderboard` (mirrors the `LeaderboardEntry` pydantic model). -/
structure LeaderboardEntry where
  userId : String
  name : String
  pizzasEaten : Int
  rank : Nat
deriving Repr, DecidableEq

/-- The Firestore state seen by the app: three collections.  `users` and
`leaderboard` are keyed association lists (document id, data); Firestore
guarantees the keys are distinct, which theorems take as a hypothesis
where they need it. -/
structure DB where
  users : List (String × Account)
  pizza_history : List HistoryRecord
  leaderboard : List (String × LeaderboardEntry)
deriving Repr, DecidableEq

/-- The body of a POST/PUT request before pydantic validation.  The `User`
model declares only `name`, `age`, `gender`; any caller-supplied values for
the economy fields are carried here only to be discarded by parsing. -/
structure RawUserPayload where
  name : String
  age : Int
  gender : String
  coins : Option Int
  pizzaSlices : Option Int
  pizzasEaten : Option Int
deriving Repr, DecidableEq

/-- The `User` pydantic model (`name`, `age`, `gender`). -/
structure User where
  name : String
  age : Int
  gender : String
deriving Repr, DecidableEq

/-- Pydantic validation of a request body against the `User` model: unknown
fields (here the economy fields) are dropped. -/
def parseUser (p : RawUserPayload) : User :=
  { name := p.name, age := p.age, gender := p.gender }

/-- An `HTTPException(status_code, detail)`. -/
structure HTTPError where
  status : Nat
  detail : String
deriving Repr, DecidableEq

/-- `db.collection(c).document(id).get()`: the first (unique) document with
this id, if any. -/
def getDoc {α : Type} (coll : List (String × α)) (id : String) : Option α :=
  (coll.find? (fun p => p.1 == id)).map (fun p => p.2)

/-- `doc_ref.update(fields)`: rewrite the document with this id in place,
leaving every other document untouched. -/
def updateDoc {α : Type} (coll : List (String × α)) (id : String) (f : α → α) :
    List (String × α) :=
  coll.map (fun p => if p.1 == id then (p.1, f p.2) else p)

/-- `doc_ref.delete()`: remove the document with this id. -/
def deleteDoc {α : Type} (coll : List (String × α)) (id : String) :
    List (String × α) :=
  coll.filter (fun p => !(p.1 == id))

/-- The store's descending order on `pizzasEaten` used by
`order_by("pizzasEaten", direction=DESCENDING)` over `users`. -/
def eatenGe (a b : String × Account) : Prop :=
  b.2.pizzasEaten ≤ a.2.pizzasEaten

instance : DecidableRel eatenGe := fun a b =>
  inferInstanceAs (Decidable (b.2.pizzasEaten ≤ a.2.pizzasEaten))

instance : IsTotal (String × Account) eatenGe :=
  ⟨fun a b => le_total b.2.pizzasEaten a.2.pizzasEaten⟩

instance : IsTrans (String × Account) eatenGe :=
  ⟨fun _ _ _ h1 h2 => le_trans h2 h1⟩

/-- The `users` collection ordered by `pizzasEaten` descending, as returned
by the store's ordered query. -/
def sortByEatenDesc (l : List (String × Account)) : List (String × Account) :=
  List.insertionSort eatenGe l

/-- The store's descending order on `timestamp` used by
`order_by("timestamp", direction=DESCENDING)` over `pizza_history`. -/
def tsGe (a b : HistoryRecord) : Prop :=
  b.timestamp ≤ a.timestamp

instance : DecidableRel tsGe := fun a b =>
  inferInstanceAs (Decidable (b.timestamp ≤ a.timestamp))

instance : IsTotal HistoryRecord tsGe := ⟨fun a b => le_total b.timestamp a.timestamp⟩

instance : IsTrans HistoryRecord tsGe := ⟨fun _ _ _ h1 h2 => le_trans h2 h1⟩

/-- `POST /users` (`create_user`): parse the body against the `User` model,
generate a fresh document id, and store the profile with the fixed economy
defaults `coins = 500`, `pizzasEaten = 0`, `pizzaSlices = 0`.  Returns the
stored account. -/
def create_user (db : DB) (freshId : String) (p : RawUserPayload) : DB × Account :=
  let user := parseUser p
  let user_data : Account :=
    { name := user.name, age := user.age, gender := user.gender,
      coins := 500, pizzasEaten := 0, pizzaSlices := 0 }
  ({ db with users := db.users ++ [(freshId, user_data)] }, user_data)

/-- `PUT /users/{user_id}` (`update_user`): 404 if the document is missing,
otherwise `update(user.dict())` rewrites exactly the three `User`-model
fields. -/
def update_user (db : DB) (user_id : String) (p : RawUserPayload) :
    DB × Except HTTPError String :=
  let user := parseUser p
  match getDoc db.users user_id with
  | none => (db, .error ⟨404, "User not found"⟩)
  | some _ =>
    let users1 := updateDoc db.users user_id
      (fun a => { a with name := user.name, age := user.age, gender := user.gender })
    ({ db with users := users1 }, .ok "User updated successfully")

/-- `DELETE /users/{user_id}` (`delete_user`): 404 if missing, otherwise
delete only the account document — no cascade to history or leaderboard. -/
def delete_user (db : DB) (user_id : String) : DB × Except HTTPError String :=
  match getDoc db.users user_id with
  | none => (db, .error ⟨404, "User not found"⟩)
  | some _ =>
    ({ db with users := deleteDoc db.users user_id }, .ok "User deleted successfully")

/-- `POST /pizzas` (`buy_pizza`): 404 if the account is missing, 400
`"Not enough coins"` when `coins < 10`, otherwise write
`coins - 10` and `pizzaSlices + 1` computed from the read snapshot. -/
def buy_pizza (db : DB) (userId : String) : DB × Except HTTPError String :=
  match getDoc db.users userId with
  | none => (db, .error ⟨404, "User not found"⟩)
  | some user_data =>
    if user_data.coins < 10 then (db, .error ⟨400, "Not enough coins"⟩)
    else
      let users1 := updateDoc db.users userId (fun a =>
        { a with coins := user_data.coins - 10,
                 pizzaSlices := user_data.pizzaSlices + 1 })
      ({ db with users := users1 }, .ok "Pizza slice purchased successfully")

/-- `update_leaderboard` materialization: one entry per user from the
descending-`pizzasEaten` query, with `rank` the 1-based enumeration
position; `leaderboard_ref.document(user.id).set(...)` is an upsert. -/
def rankedEntries : List (String × Account) → Nat → List (String × LeaderboardEntry)
  | [], _ => []
  | (id, a) :: rest, r =>
    (id, { userId := id, name := a.name, pizzasEaten := a.pizzasEaten, rank := r }) ::
      rankedEntries rest (r + 1)

/-- `leaderboard_ref.document(id).set(e)`: replace the entry with this id if
present, otherwise add it. -/
def upsertEntry (coll : List (String × LeaderboardEntry)) (id : String)
    (e : LeaderboardEntry) : List (String × LeaderboardEntry) :=
  if coll.any (fun p => p.1 == id) then
    coll.map (fun p => if p.1 == id then (id, e) else p)
  else coll ++ [(id, e)]

/-- The sequence of `.set` calls performed by one `update_leaderboard()`
run, applied left to right. -/
def upsertAll (lb : List (String × LeaderboardEntry))
    (es : List (String × LeaderboardEntry)) : List (String × LeaderboardEntry) :=
  es.foldl (fun acc p => upsertEntry acc p.1 p.2) lb

/-- The ranked entries one `update_leaderboard()` run writes for the
current `users` collection: the descending-`pizzasEaten` query enumerated
with ranks starting at 1. -/
def rebuildEntries (db : DB) : List (String × LeaderboardEntry) :=
  rankedEntries (sortByEatenDesc db.users) 1

/-- `update_leaderboard()`: read all users ordered by `pizzasEaten`
descending, and set one leaderboard entry per user with rank
`enumerate(..., start=1)`. -/
def update_leaderboard (db : DB) : DB :=
  { db with leaderboard := upsertAll db.leaderboard (rebuildEntries db) }

/-- `POST /log-pizza` (`log_pizza`): 404 if missing, 400
`"No pizza slices available to log"` when `pizzaSlices < 1`; otherwise
decrement `pizzaSlices`, increment `pizzasEaten`, append one
`pizza_history` document `{userId, now}` with a fresh id, then run
`update_leaderboard()` before returning. -/
def log_pizza (db : DB) (userId : String) (histId : String) (now : Int) :
    DB × Except HTTPError String :=
  match getDoc db.users userId with
  | none => (db, .error ⟨404, "User not found"⟩)
  | some user_data =>
    if user_data.pizzaSlices < 1 then
      (db, .error ⟨400, "No pizza slices available to log"⟩)
    else
      let users1 := updateDoc db.users userId (fun a =>
        { a with pizzaSlices := user_data.pizzaSlices - 1,
                 pizzasEaten := user_data.pizzasEaten + 1 })
      let db1 : DB := { db with users := users1 }
      let db2 : DB :=
        { db1 with pizza_history :=
            db1.pizza_history ++ [⟨histId, userId, now⟩] }
      (update_leaderboard db2, .ok "Pizza logged successfully")

/-- What the response serializer does to `datetime.isoformat()`: an
injective textual rendering of the stored timestamp. -/
def isoformat (t : Int) : String := toString t

/-- An element of the `GET /pizza-history/{user_id}` response:
`{"id": entry.id, "timestamp": entry.to_dict()["timestamp"].isoformat()}` —
note there is no `userId` field. -/
structure HistoryView where
  id : String
  timestamp : String
deriving Repr, DecidableEq

/-- `GET /pizza-history/{user_id}` (`get_pizza_history`): filter
`pizza_history` on `userId`, order by `timestamp` descending, and return
only each record's id and formatted timestamp. -/
def get_pizza_history (db : DB) (user_id : String) : List HistoryView :=
  ((db.pizza_history.filter (fun r => r.userId == user_id)).insertionSort tsGe).map
    (fun r => { id := r.id, timestamp := isoformat r.timestamp })

/-- `GET /leaderboard` (`get_leaderboard`): query the `users` collection —
not the materialized `leaderboard` collection — ordered by `pizzasEaten`
descending with `limit(10)`, returning each user document's data
(`entry.to_dict()`, without the id). -/
def get_leaderboard (db : DB) : List Account :=
  ((sortByEatenDesc db.users).take 10).map (fun p => p.2)

/-- How many documents of the collection carry this id; Firestore keeps it
at one per id ("exactly one entry per live account"). -/
def countKey (lb : List (String × LeaderboardEntry)) (id : String) : Nat :=
  (lb.filter (fun p => p.1 == id)).length

/-- One client call against the service, with the environment-supplied
fresh document ids and clock value made explicit. -/
inductive Op where
  | createUser (freshId : String) (p : RawUserPayload)
  | updateProfile (id : String) (p : RawUserPayload)
  | deleteAccount (id : String)
  | purchase (uid : String)
  | consume (uid : String) (hid : String) (now : Int)

/-- The store after handling one request (response discarded). -/
def applyOp (db : DB) : Op → DB
  | .createUser freshId p => (create_user db freshId p).1
  | .updateProfile id p => (update_user db id p).1
  | .deleteAccount id => (delete_user db id).1
  | .purchase uid => (buy_pizza db uid).1
  | .consume uid hid now => (log_pizza db uid hid now).1

/-- The store after a sequence of requests handled one after the other. -/
def runOps (db : DB) (ops : List Op) : DB := ops.foldl applyOp db

/-- The empty store the service starts from. -/
def initialDB : DB := { users := [], pizza_history := [], leaderboard := [] }

/-- Every stored account has non-negative coins, slices and eaten count. -/
def economyNonneg (db : DB) : Prop :=
  ∀ p ∈ db.users, 0 ≤ p.2.coins ∧ 0 ≤ p.2.pizzaSlices ∧ 0 ≤ p.2.pizzasEaten

/-- A concrete one-account store used to exercise the theorems on closed
inputs. -/
def oneUserDB : DB :=
  { users := [("u1", ⟨"alice", 30, "f", 500, 2, 1⟩)],
    pizza_history := [],
    leaderboard := [] }

/-- A concrete store whose only account cannot afford a slice and has no
slice to consume. -/
def poorUserDB : DB :=
  { users := [("u1", ⟨"carol", 20, "f", 5, 0, 0⟩)],
    pizza_history := [],
    leaderboard := [] }

/-- A concrete store matching spec Scenario D: two accounts with 3 and 5
pizzas eaten. -/
def rebuildWitnessDB : DB :=
  { users := [("u1", ⟨"dana", 25, "f", 500, 0, 3⟩), ("u2", ⟨"bob", 22, "m", 490, 1, 5⟩)],
    pizza_history := [],
    leaderboard := [] }

/-- A concrete two-account store, with a history record and leaderboard
entries referencing account `u1`, used to exercise the theorems on closed
inputs. -/
def deleteWitnessDB : DB :=
  { users := [("u1", ⟨"alice", 30, "f", 500, 0, 3⟩), ("u2", ⟨"bob", 22, "m", 490, 1, 0⟩)],
    pizza_history := [⟨"h1", "u1", 3⟩],
    leaderboard := [("u1", ⟨"u1", "alice", 3, 1⟩), ("u2", ⟨"u2", "bob", 0, 2⟩)] }

/-! ### Association-list lemmas for the document-store primitives -/

theorem getDoc_cons {α : Type} (p : String × α) (rest : List (String × α))
    (id : String) :
    getDoc (p :: rest) id = if p.1 = id then some p.2 else getDoc rest id := by
  by_cases hp : p.1 = id
  · have hb : (p.1 == id) = true := by simpa using hp
    simp only [getDoc, List.find?, hb, if_pos hp]
    rfl
  · have hb : (p.1 == id) = false := by simpa using hp
    simp only [getDoc, List.find?, hb, if_neg hp]

theorem updateDoc_cons {α : Type} (p : String × α) (rest : List (String × α))
    (id : String) (f : α → α) :
    updateDoc (p :: rest) id f =
      (if p.1 = id then (p.1, f p.2) else p) :: updateDoc rest id f := by
  unfold updateDoc
  rw [List.map_cons]
  by_cases hp : p.1 = id
  · have hb : (p.1 == id) = true := by simpa using hp
    rw [if_pos hb, if_pos hp]
  · have hb : ¬ (p.1 == id) = true := by simpa using hp
    rw [if_neg hb, if_neg hp]

theorem deleteDoc_cons {α : Type} (p : String × α) (rest : List (String × α))
    (id : String) :
    deleteDoc (p :: rest) id =
      if p.1 = id then deleteDoc rest id else p :: deleteDoc rest id := by
  unfold deleteDoc
  by_cases hp : p.1 = id
  · have hb : (!(p.1 == id)) = false := by simpa using hp
    rw [List.filter_cons, hb, if_neg (by simp), if_pos hp]
  · have hb : (!(p.1 == id)) = true := by simpa using hp
    rw [List.filter_cons, hb, if_pos (by simp), if_neg hp]

theorem getDoc_mem {α : Type} {coll : List (String × α)} {id : String} {a : α}
    (h : getDoc coll id = some a) : ∃ k, (k, a) ∈ coll := by
  unfold getDoc at h
  cases hf : coll.find? (fun p => p.1 == id) with
  | none => simp [hf] at h
  | some pr =>
    have hm := List.mem_of_find?_eq_some hf
    simp [hf] at h
    refine ⟨pr.1, ?_⟩
    rw [← h]
    simpa using hm

theorem getDoc_updateDoc_self {α : Type} {coll : List (String × α)} {id : String}
    {a : α} (f : α → α) (h : getDoc coll id = some a) :
    getDoc (updateDoc coll id f) id = some (f a) := by
  induction coll with
  | nil => simp [getDoc] at h
  | cons p rest ih =>
    rw [getDoc_cons] at h
    rw [updateDoc_cons, getDoc_cons]
    by_cases hp : p.1 = id
    · rw [if_pos hp] at h
      rw [if_pos hp]
      simp only [if_pos hp]
      cases h
      rfl
    · rw [if_neg hp] at h
      rw [if_neg hp]
      simp only [if_neg hp]
      exact ih h

theorem getDoc_updateDoc_ne {α : Type} (coll : List (String × α)) (id id2 : String)
    (f : α → α) (h : id2 ≠ id) :
    getDoc (updateDoc coll id f) id2 = getDoc coll id2 := by
  induction coll with
  | nil => rfl
  | cons p rest ih =>
    rw [updateDoc_cons, getDoc_cons, getDoc_cons]
    by_cases hp : p.1 = id
    · have hp2 : ¬ p.1 = id2 := by
        rw [hp]
        exact fun hs => h hs.symm
      rw [if_pos hp]
      rw [if_neg hp2, if_neg hp2]
      exact ih
    · rw [if_neg hp]
      by_cases hp2 : p.1 = id2
      · rw [if_pos hp2, if_pos hp2]
      · rw [if_neg hp2, if_neg hp2]
        exact ih

theorem getDoc_deleteDoc_self {α : Type} (coll : List (String × α)) (id : String) :
    getDoc (deleteDoc coll id) id = none := by
  induction coll with
  | nil => rfl
  | cons p rest ih =>
    rw [deleteDoc_cons]
    by_cases hp : p.1 = id
    · rw [if_pos hp]
      exact ih
    · rw [if_neg hp, getDoc_cons, if_neg hp]
      exact ih

theorem getDoc_deleteDoc_ne {α : Type} (coll : List (String × α)) (id id2 : String)
    (h : id2 ≠ id) : getDoc (deleteDoc coll id) id2 = getDoc coll id2 := by
  induction coll with
  | nil => rfl
  | cons p rest ih =>
    rw [deleteDoc_cons, getDoc_cons]
    by_cases hp : p.1 = id
    · have hp2 : ¬ p.1 = id2 := by
        rw [hp]
        exact fun hs => h hs.symm
      rw [if_pos hp, if_neg hp2]
      exact ih
    · rw [if_neg hp, getDoc_cons]
      by_cases hp2 : p.1 = id2
      · rw [if_pos hp2, if_pos hp2]
      · rw [if_neg hp2, if_neg hp2]
        exact ih

theorem update_leaderboard_users (db : DB) : (update_leaderboard db).users = db.users :=
  rfl

theorem update_leaderboard_history (db : DB) :
    (update_leaderboard db).pizza_history = db.pizza_history :=
  rfl

/-! ### Claim theorems -/

/-- C6: `CreateAccount` always succeeds; the stored account (also the one
returned) carries the caller's profile fields but always `coins = 500`,
`pizzaSlices = 0`, `pizzasEaten = 0`, whatever economy values the request
body carried (`parseUser` drops them); nothing else in the store changes. -/
theorem createAccount_defaults (db : DB) (freshId : String) (p : RawUserPayload) :
    (create_user db freshId p).2.coins = 500 ∧
    (create_user db freshId p).2.pizzaSlices = 0 ∧
    (create_user db freshId p).2.pizzasEaten = 0 ∧
    (create_user db freshId p).2.name = p.name ∧
    (create_user db freshId p).2.age = p.age ∧
    (create_user db freshId p).2.gender = p.gender ∧
    (create_user db freshId p).1.users =
      db.users ++ [(freshId, (create_user db freshId p).2)] ∧
    (create_user db freshId p).1.pizza_history = db.pizza_history ∧
    (create_user db freshId p).1.leaderboard = db.leaderboard :=
  ⟨rfl, rfl, rfl, rfl, rfl, rfl, rfl, rfl, rfl⟩

/-- C7: `UpdateProfile` on an existing account rewrites exactly the name,
age and gender fields (the `with` form keeps every other field of the
stored account), touches no other account and no other collection, and on
a missing account reports 404 `NotFound` with the store unchanged. -/
theorem updateProfile_exact_fields (db : DB) (id : String) (p : RawUserPayload) :
    (getDoc db.users id = none →
      update_user db id p = (db, Except.error ⟨404, "User not found"⟩)) ∧
    (∀ a, getDoc db.users id = some a →
      (update_user db id p).2 = Except.ok "User updated successfully" ∧
      getDoc (update_user db id p).1.users id =
        some { a with name := p.name, age := p.age, gender := p.gender } ∧
      (∀ id2, id2 ≠ id →
        getDoc (update_user db id p).1.users id2 = getDoc db.users id2) ∧
      (update_user db id p).1.pizza_history = db.pizza_history ∧
      (update_user db id p).1.leaderboard = db.leaderboard) := by
  constructor
  · intro h
    simp [update_user, h]
  · intro a h
    refine ⟨by simp [update_user, h], ?_, ?_, by simp [update_user, h], by simp [update_user, h]⟩
    · simp only [update_user, h]
      exact getDoc_updateDoc_self _ h
    · intro id2 h2
      simp only [update_user, h]
      exact getDoc_updateDoc_ne _ _ _ _ h2

/-- C7 witness: the theorem applied to a one-account store. -/
theorem updateProfile_exact_fields_witness :
    getDoc oneUserDB.users "u1" = some ⟨"alice", 30, "f", 500, 2, 1⟩ ∧
    getDoc (update_user oneUserDB "u1"
        ⟨"bob", 31, "m", some 7, some 7, some 7⟩).1.users "u1" =
      some ⟨"bob", 31, "m", 500, 2, 1⟩ :=
  ⟨by decide,
   ((updateProfile_exact_fields oneUserDB "u1"
      ⟨"bob", 31, "m", some 7, some 7, some 7⟩).2 ⟨"alice", 30, "f", 500, 2, 1⟩
      (by decide)).2.1⟩

/-- C8: `DeleteAccount` on an existing account removes only that account's
document: every other account, the whole `pizza_history` collection and the
whole `leaderboard` collection (including entries referencing the deleted
account) are untouched; on a missing account it reports 404 `NotFound`. -/
theorem deleteAccount_no_cascade (db : DB) (id : String) :
    (getDoc db.users id = none →
      delete_user db id = (db, Except.error ⟨404, "User not found"⟩)) ∧
    (∀ a, getDoc db.users id = some a →
      (delete_user db id).2 = Except.ok "User deleted successfully" ∧
      getDoc (delete_user db id).1.users id = none ∧
      (∀ id2, id2 ≠ id →
        getDoc (delete_user db id).1.users id2 = getDoc db.users id2) ∧
      (delete_user db id).1.pizza_history = db.pizza_history ∧
      (delete_user db id).1.leaderboard = db.leaderboard) := by
  constructor
  · intro h
    simp [delete_user, h]
  · intro a h
    refine ⟨by simp [delete_user, h], ?_, ?_, by simp [delete_user, h], by simp [delete_user, h]⟩
    · simp only [delete_user, h]
      exact getDoc_deleteDoc_self _ _
    · intro id2 h2
      simp only [delete_user, h]
      exact getDoc_deleteDoc_ne _ _ _ h2

/-- C8 witness: deleting one of two accounts leaves the other account and a
leaderboard/history entry referencing the deleted account in place. -/
theorem deleteAccount_no_cascade_witness :
    getDoc deleteWitnessDB.users "u1" = some ⟨"alice", 30, "f", 500, 0, 3⟩ ∧
    getDoc (delete_user deleteWitnessDB "u1").1.users "u1" = none ∧
    getDoc (delete_user deleteWitnessDB "u1").1.users "u2" =
      getDoc deleteWitnessDB.users "u2" ∧
    (delete_user deleteWitnessDB "u1").1.pizza_history =
      deleteWitnessDB.pizza_history ∧
    (delete_user deleteWitnessDB "u1").1.leaderboard = deleteWitnessDB.leaderboard := by
  have h := (deleteAccount_no_cascade deleteWitnessDB "u1").2
    ⟨"alice", 30, "f", 500, 0, 3⟩ (by decide)
  exact ⟨by decide, h.2.1, h.2.2.1 "u2" (by decide), h.2.2.2.1, h.2.2.2.2⟩

/-- C1: `Purchase` is all-or-nothing.  On an existing account with at least
10 coins it sets exactly `coins - 10` and `pizzaSlices + 1` (every other
field of the account, every other account, and the other collections are
untouched) and reports success; on a missing account it reports 404
`NotFound` with the store unchanged; with fewer than 10 coins it reports
400 `InsufficientFunds` ("Not enough coins") with the store unchanged. -/
theorem purchase_all_or_nothing (db : DB) (uid : String) :
    (getDoc db.users uid = none →
      buy_pizza db uid = (db, Except.error ⟨404, "User not found"⟩)) ∧
    (∀ u, getDoc db.users uid = some u → u.coins < 10 →
      buy_pizza db uid = (db, Except.error ⟨400, "Not enough coins"⟩)) ∧
    (∀ u, getDoc db.users uid = some u → 10 ≤ u.coins →
      (buy_pizza db uid).2 = Except.ok "Pizza slice purchased successfully" ∧
      getDoc (buy_pizza db uid).1.users uid =
        some { u with coins := u.coins - 10, pizzaSlices := u.pizzaSlices + 1 } ∧
      (∀ id2, id2 ≠ uid →
        getDoc (buy_pizza db uid).1.users id2 = getDoc db.users id2) ∧
      (buy_pizza db uid).1.pizza_history = db.pizza_history ∧
      (buy_pizza db uid).1.leaderboard = db.leaderboard) := by
  refine ⟨fun h => by simp [buy_pizza, h], fun u h hc => by simp [buy_pizza, h, hc], ?_⟩
  intro u h hc
  have hlt : ¬ u.coins < 10 := not_lt.mpr hc
  refine ⟨by simp [buy_pizza, h, hlt], ?_, ?_, by simp [buy_pizza, h, hlt],
    by simp [buy_pizza, h, hlt]⟩
  · simp only [buy_pizza, h, if_neg hlt]
    exact getDoc_updateDoc_self _ h
  · intro id2 h2
    simp only [buy_pizza, h, if_neg hlt]
    exact getDoc_updateDoc_ne _ _ _ _ h2

/-- C1 witness: the three branches exercised on concrete stores. -/
theorem purchase_all_or_nothing_witness :
    getDoc oneUserDB.users "u1" = some ⟨"alice", 30, "f", 500, 2, 1⟩ ∧
    (buy_pizza oneUserDB "u1").2 = Except.ok "Pizza slice purchased successfully" ∧
    getDoc (buy_pizza oneUserDB "u1").1.users "u1" =
      some ⟨"alice", 30, "f", 490, 3, 1⟩ ∧
    buy_pizza oneUserDB "zz" = (oneUserDB, Except.error ⟨404, "User not found"⟩) ∧
    buy_pizza poorUserDB "u1" = (poorUserDB, Except.error ⟨400, "Not enough coins"⟩) := by
  have hs := (purchase_all_or_nothing oneUserDB "u1").2.2
    ⟨"alice", 30, "f", 500, 2, 1⟩ (by decide) (by decide)
  have hn := (purchase_all_or_nothing oneUserDB "zz").1 (by decide)
  have hp := (purchase_all_or_nothing poorUserDB "u1").2.1
    ⟨"carol", 20, "f", 5, 0, 0⟩ (by decide) (by decide)
  exact ⟨by decide, hs.1, hs.2.1, hn, hp⟩

/-- C2: `Consume` is all-or-nothing as one logical unit.  On an existing
account with at least one slice it sets exactly `pizzaSlices - 1` and
`pizzasEaten + 1`, appends exactly one `pizza_history` record carrying that
account id, and the returned store is `update_leaderboard` applied to the
mutated store (the rebuild runs before the call returns); on a missing
account it reports 404 `NotFound`, with no slices it reports 400
`NoInventory` ("No pizza slices available to log"), both leaving the whole
store unchanged. -/
theorem consume_all_or_nothing (db : DB) (uid hid : String) (now : Int) :
    (getDoc db.users uid = none →
      log_pizza db uid hid now = (db, Except.error ⟨404, "User not found"⟩)) ∧
    (∀ u, getDoc db.users uid = some u → u.pizzaSlices < 1 →
      log_pizza db uid hid now =
        (db, Except.error ⟨400, "No pizza slices available to log"⟩)) ∧
    (∀ u, getDoc db.users uid = some u → 1 ≤ u.pizzaSlices →
      (log_pizza db uid hid now).2 = Except.ok "Pizza logged successfully" ∧
      getDoc (log_pizza db uid hid now).1.users uid =
        some { u with pizzaSlices := u.pizzaSlices - 1,
                      pizzasEaten := u.pizzasEaten + 1 } ∧
      (∀ id2, id2 ≠ uid →
        getDoc (log_pizza db uid hid now).1.users id2 = getDoc db.users id2) ∧
      (log_pizza db uid hid now).1.pizza_history =
        db.pizza_history ++ [{ id := hid, userId := uid, timestamp := now }] ∧
      (log_pizza db uid hid now).1 =
        update_leaderboard
          { users := updateDoc db.users uid (fun a =>
              { a with pizzaSlices := u.pizzaSlices - 1,
                       pizzasEaten := u.pizzasEaten + 1 }),
            pizza_history :=
              db.pizza_history ++ [{ id := hid, userId := uid, timestamp := now }],
            leaderboard := db.leaderboard }) := by
  refine ⟨fun h => by simp [log_pizza, h], fun u h hc => by simp [log_pizza, h, hc], ?_⟩
  intro u h hc
  have hlt : ¬ u.pizzaSlices < 1 := not_lt.mpr hc
  refine ⟨by simp [log_pizza, h, hlt], ?_, ?_,
    by simp [log_pizza, h, hlt, update_leaderboard_history], ?_⟩
  · simp only [log_pizza, h, if_neg hlt, update_leaderboard_users]
    exact getDoc_updateDoc_self _ h
  · intro id2 h2
    simp only [log_pizza, h, if_neg hlt, update_leaderboard_users]
    exact getDoc_updateDoc_ne _ _ _ _ h2
  · simp only [log_pizza, h, if_neg hlt]

/-- C2 witness: the three branches exercised on concrete stores. -/
theorem consume_all_or_nothing_witness :
    getDoc oneUserDB.users "u1" = some ⟨"alice", 30, "f", 500, 2, 1⟩ ∧
    (log_pizza oneUserDB "u1" "h9" 42).2 = Except.ok "Pizza logged successfully" ∧
    getDoc (log_pizza oneUserDB "u1" "h9" 42).1.users "u1" =
      some ⟨"alice", 30, "f", 500, 1, 2⟩ ∧
    (log_pizza oneUserDB "u1" "h9" 42).1.pizza_history = [⟨"h9", "u1", 42⟩] ∧
    log_pizza oneUserDB "zz" "h9" 42 =
      (oneUserDB, Except.error ⟨404, "User not found"⟩) ∧
    log_pizza poorUserDB "u1" "h9" 42 =
      (poorUserDB, Except.error ⟨400, "No pizza slices available to log"⟩) := by
  have hs := (consume_all_or_nothing oneUserDB "u1" "h9" 42).2.2
    ⟨"alice", 30, "f", 500, 2, 1⟩ (by decide) (by decide)
  have hn := (consume_all_or_nothing oneUserDB "zz" "h9" 42).1 (by decide)
  have hp := (consume_all_or_nothing poorUserDB "u1" "h9" 42).2.1
    ⟨"carol", 20, "f", 5, 0, 0⟩ (by decide) (by decide)
  exact ⟨by decide, hs.1, hs.2.1, hs.2.2.2.1, hn, hp⟩

/-- C9: the two economy transitions write only the two fields of their
effect.  A successful `Purchase` stores `{ u with coins, pizzaSlices }` —
so `pizzasEaten`, `name`, `age`, `gender` are carried over unchanged — and
a successful `Consume` stores `{ u with pizzaSlices, pizzasEaten }` — so
`coins`, `name`, `age`, `gender` are carried over unchanged; in both cases
every other account is untouched. -/
theorem transitions_touch_only_their_fields (db : DB) (uid hid : String) (now : Int) :
    (∀ u, getDoc db.users uid = some u → 10 ≤ u.coins →
      getDoc (buy_pizza db uid).1.users uid =
        some { u with coins := u.coins - 10, pizzaSlices := u.pizzaSlices + 1 } ∧
      (∀ id2, id2 ≠ uid →
        getDoc (buy_pizza db uid).1.users id2 = getDoc db.users id2)) ∧
    (∀ u, getDoc db.users uid = some u → 1 ≤ u.pizzaSlices →
      getDoc (log_pizza db uid hid now).1.users uid =
        some { u with pizzaSlices := u.pizzaSlices - 1,
                      pizzasEaten := u.pizzasEaten + 1 } ∧
      (∀ id2, id2 ≠ uid →
        getDoc (log_pizza db uid hid now).1.users id2 = getDoc db.users id2)) := by
  constructor
  · intro u h hc
    have hlt : ¬ u.coins < 10 := not_lt.mpr hc
    refine ⟨?_, ?_⟩
    · simp only [buy_pizza, h, if_neg hlt]
      exact getDoc_updateDoc_self _ h
    · intro id2 h2
      simp only [buy_pizza, h, if_neg hlt]
      exact getDoc_updateDoc_ne _ _ _ _ h2
  · intro u h hc
    have hlt : ¬ u.pizzaSlices < 1 := not_lt.mpr hc
    refine ⟨?_, ?_⟩
    · simp only [log_pizza, h, if_neg hlt, update_leaderboard_users]
      exact getDoc_updateDoc_self _ h
    · intro id2 h2
      simp only [log_pizza, h, if_neg hlt, update_leaderboard_users]
      exact getDoc_updateDoc_ne _ _ _ _ h2

/-- C9 witness: both transitions on a concrete two-slice account. -/
theorem transitions_touch_only_their_fields_witness :
    getDoc oneUserDB.users "u1" = some ⟨"alice", 30, "f", 500, 2, 1⟩ ∧
    getDoc (buy_pizza oneUserDB "u1").1.users "u1" =
      some ⟨"alice", 30, "f", 490, 3, 1⟩ ∧
    getDoc (log_pizza oneUserDB "u1" "h9" 42).1.users "u1" =
      some ⟨"alice", 30, "f", 500, 1, 2⟩ := by
  have ht := transitions_touch_only_their_fields oneUserDB "u1" "h9" 42
  exact ⟨by decide,
    (ht.1 ⟨"alice", 30, "f", 500, 2, 1⟩ (by decide) (by decide)).1,
    (ht.2 ⟨"alice", 30, "f", 500, 2, 1⟩ (by decide) (by decide)).1⟩

/-- C10: `QueryHistory` returns exactly the account's records (a
permutation of the `userId` filter of `pizza_history`), ordered by
timestamp descending, and each returned element is built from exactly the
record's id and its ISO-formatted timestamp — the output type
`HistoryView` carries no `userId` field. -/
theorem history_query_shape (db : DB) (uid : String) :
    ∃ rs : List HistoryRecord,
      rs.Perm (db.pizza_history.filter (fun r => r.userId == uid)) ∧
      (∀ r ∈ rs, r.userId = uid) ∧
      rs.Pairwise (fun a b => b.timestamp ≤ a.timestamp) ∧
      get_pizza_history db uid =
        rs.map (fun r => { id := r.id, timestamp := isoformat r.timestamp }) := by
  have hperm := List.perm_insertionSort tsGe
    (db.pizza_history.filter (fun r => r.userId == uid))
  refine ⟨_, hperm, ?_, ?_, rfl⟩
  · intro r hr
    have hm : r ∈ db.pizza_history.filter (fun r => r.userId == uid) :=
      hperm.mem_iff.mp hr
    simpa using List.of_mem_filter hm
  · exact (List.sorted_insertionSort tsGe _).imp (fun h => h)

/-- C10 witness: the query shape instantiated on a concrete store. -/
theorem history_query_shape_witness :
    ∃ rs : List HistoryRecord,
      rs.Perm (deleteWitnessDB.pizza_history.filter (fun r => r.userId == "u1")) ∧
      (∀ r ∈ rs, r.userId = "u1") ∧
      rs.Pairwise (fun a b => b.timestamp ≤ a.timestamp) ∧
      get_pizza_history deleteWitnessDB "u1" =
        rs.map (fun r => { id := r.id, timestamp := isoformat r.timestamp }) :=
  history_query_shape deleteWitnessDB "u1"

/-- C3 counterexample: with one live account and an *empty* materialized
`leaderboard` collection (no Rebuild has ever run), `GET /leaderboard`
still returns an entry, so the read is not served from the materialized
LeaderboardEntry set — the handler recomputes from the live `users`
collection. -/
theorem getTop_counterexample :
    oneUserDB.leaderboard = [] ∧ get_leaderboard oneUserDB ≠ [] :=
  ⟨rfl, by decide⟩

/-- C3 (amended): `GET /leaderboard` takes no `n` parameter — the bound is
fixed at 10 — and returns the first at-most-10 user documents of the live
`users` collection sorted by `pizzasEaten` descending (a prefix of that
full ranking order); the result is non-increasing in `pizzasEaten`, and it
depends only on `users`: the materialized `leaderboard` collection and the
history are ignored by the read. -/
theorem getTop_live_ranking_window (db : DB) :
    get_leaderboard db = ((sortByEatenDesc db.users).map (fun p => p.2)).take 10 ∧
    (get_leaderboard db).length ≤ 10 ∧
    (get_leaderboard db).Pairwise (fun a b => b.pizzasEaten ≤ a.pizzasEaten) ∧
    (∀ lb hist, get_leaderboard ⟨db.users, hist, lb⟩ = get_leaderboard db) := by
  refine ⟨?_, ?_, ?_, fun lb hist => rfl⟩
  · unfold get_leaderboard
    rw [List.map_take]
  · unfold get_leaderboard
    rw [List.length_map]
    exact List.length_take_le 10 _
  · have hs : (sortByEatenDesc db.users).Pairwise eatenGe :=
      List.sorted_insertionSort eatenGe db.users
    have ht : ((sortByEatenDesc db.users).take 10).Pairwise eatenGe :=
      hs.sublist (List.take_sublist 10 _)
    exact ht.map (fun p : String × Account => p.2) (fun a b h => h)

theorem mem_updateDoc {α : Type} {coll : List (String × α)} {id : String}
    {f : α → α} {q : String × α} (hq : q ∈ updateDoc coll id f) :
    q ∈ coll ∨ ∃ p, p ∈ coll ∧ q = (p.1, f p.2) := by
  rcases List.mem_map.mp hq with ⟨p, hp, hg⟩
  by_cases hk : (p.1 == id) = true
  · right
    refine ⟨p, hp, ?_⟩
    rw [← hg]
    simp [hk]
  · left
    rw [← hg]
    simpa [hk] using hp

theorem applyOp_nonneg (db : DB) (op : Op) (h : economyNonneg db) :
    economyNonneg (applyOp db op) := by
  cases op with
  | createUser freshId p =>
    intro q hq
    simp only [applyOp, create_user] at hq
    rcases List.mem_append.mp hq with h1 | h2
    · exact h q h1
    · have hqe : q = (freshId, ⟨p.name, p.age, p.gender, 500, 0, 0⟩) := by
        simpa using h2
      rw [hqe]
      refine ⟨by norm_num, by norm_num, by norm_num⟩
  | updateProfile id p =>
    intro q hq
    simp only [applyOp] at hq
    cases hget : getDoc db.users id with
    | none =>
      simp only [update_user, hget] at hq
      exact h q hq
    | some a =>
      simp only [update_user, hget] at hq
      rcases mem_updateDoc hq with h1 | ⟨p0, hp0, hq2⟩
      · exact h q h1
      · rw [hq2]
        exact h p0 hp0
  | deleteAccount id =>
    intro q hq
    simp only [applyOp] at hq
    cases hget : getDoc db.users id with
    | none =>
      simp only [delete_user, hget] at hq
      exact h q hq
    | some a =>
      simp only [delete_user, hget] at hq
      exact h q (List.mem_of_mem_filter hq)
  | purchase uid =>
    intro q hq
    simp only [applyOp] at hq
    cases hget : getDoc db.users uid with
    | none =>
      simp only [buy_pizza, hget] at hq
      exact h q hq
    | some u =>
      by_cases hc : u.coins < 10
      · simp only [buy_pizza, hget, if_pos hc] at hq
        exact h q hq
      · simp only [buy_pizza, hget, if_neg hc] at hq
        rcases mem_updateDoc hq with h1 | ⟨p0, hp0, hq2⟩
        · exact h q h1
        · rw [hq2]
          obtain ⟨k, hk⟩ := getDoc_mem hget
          have hu : 0 ≤ u.coins ∧ 0 ≤ u.pizzaSlices ∧ 0 ≤ u.pizzasEaten := h (k, u) hk
          have hq0 := h p0 hp0
          have hc2 : 10 ≤ u.coins := not_lt.mp hc
          refine ⟨?_, ?_, ?_⟩
          · show 0 ≤ u.coins - 10
            omega
          · show 0 ≤ u.pizzaSlices + 1
            have := hu.2.1
            omega
          · exact hq0.2.2
  | consume uid hid now =>
    intro q hq
    simp only [applyOp] at hq
    cases hget : getDoc db.users uid with
    | none =>
      simp only [log_pizza, hget] at hq
      exact h q hq
    | some u =>
      by_cases hc : u.pizzaSlices < 1
      · simp only [log_pizza, hget, if_pos hc] at hq
        exact h q hq
      · simp only [log_pizza, hget, if_neg hc, update_leaderboard_users] at hq
        rcases mem_updateDoc hq with h1 | ⟨p0, hp0, hq2⟩
        · exact h q h1
        · rw [hq2]
          obtain ⟨k, hk⟩ := getDoc_mem hget
          have hu : 0 ≤ u.coins ∧ 0 ≤ u.pizzaSlices ∧ 0 ≤ u.pizzasEaten := h (k, u) hk
          have hv := h p0 hp0
          have hc2 : 1 ≤ u.pizzaSlices := not_lt.mp hc
          refine ⟨hv.1, ?_, ?_⟩
          · show 0 ≤ u.pizzaSlices - 1
            omega
          · show 0 ≤ u.pizzasEaten + 1
            have := hu.2.2
            omega

theorem economyNonneg_runOps (ops : List Op) (db : DB) (h : economyNonneg db) :
    economyNonneg (runOps db ops) := by
  induction ops generalizing db with
  | nil => exact h
  | cons op rest ih => exact ih (applyOp db op) (applyOp_nonneg db op h)

/-- C5: starting from the empty store, after any sequence of
CreateAccount / UpdateProfile / DeleteAccount / Purchase / Consume
requests every stored account has `coins ≥ 0`, `pizzaSlices ≥ 0` and
`pizzasEaten ≥ 0`; since the sequence is arbitrary this covers every
intermediate state as well. -/
theorem economy_fields_never_negative (ops : List Op) :
    economyNonneg (runOps initialDB ops) :=
  economyNonneg_runOps ops initialDB (fun q hq => absurd hq (List.not_mem_nil q))

/-! ### Lemmas about one leaderboard upsert -/

theorem upsertEntry_nil (k : String) (e : LeaderboardEntry) :
    upsertEntry [] k e = [(k, e)] := rfl

theorem upsertEntry_cons (p : String × LeaderboardEntry)
    (rest : List (String × LeaderboardEntry)) (k : String) (e : LeaderboardEntry) :
    upsertEntry (p :: rest) k e =
      if p.1 = k then
        (k, e) :: rest.map (fun q => if q.1 == k then (k, e) else q)
      else p :: upsertEntry rest k e := by
  by_cases hp : p.1 = k
  · have hb : (p.1 == k) = true := by simpa using hp
    have hany : ((p :: rest).any (fun q => q.1 == k)) = true := by
      simp [List.any_cons, hb]
    unfold upsertEntry
    rw [if_pos hany, if_pos hp, List.map_cons, if_pos hb]
  · have hb : ¬ ((p.1 == k) = true) := by simpa using hp
    unfold upsertEntry
    by_cases hany : (rest.any (fun q => q.1 == k)) = true
    · have hany2 : ((p :: rest).any (fun q => q.1 == k)) = true := by
        simp [List.any_cons, hany]
      rw [if_pos hany2, if_neg hp, if_pos hany, List.map_cons, if_neg hb]
    · have hany2 : ¬ (((p :: rest).any (fun q => q.1 == k)) = true) := by
        simp only [List.any_cons, Bool.or_eq_true]
        rintro (hc | hc)
        · exact hb hc
        · exact hany hc
      rw [if_neg hany2, if_neg hp, if_neg hany, List.cons_append]

theorem getDoc_mapReplace_ne (rest : List (String × LeaderboardEntry))
    (k k2 : String) (e : LeaderboardEntry) (h : k2 ≠ k) :
    getDoc (rest.map (fun q => if q.1 == k then (k, e) else q)) k2 =
      getDoc rest k2 := by
  induction rest with
  | nil => rfl
  | cons q rest ih =>
    rw [List.map_cons, getDoc_cons, getDoc_cons]
    by_cases hq : q.1 = k
    · have hb : (q.1 == k) = true := by simpa using hq
      rw [if_pos hb]
      have h1 : ¬ ((k, e).1 = k2) := fun hs => h hs.symm
      have h2 : ¬ (q.1 = k2) := by
        rw [hq]
        exact fun hs => h hs.symm
      rw [if_neg h1, if_neg h2]
      exact ih
    · have hb : ¬ ((q.1 == k) = true) := by simpa using hq
      rw [if_neg hb]
      by_cases hq2 : q.1 = k2
      · rw [if_pos hq2, if_pos hq2]
      · rw [if_neg hq2, if_neg hq2]
        exact ih

theorem getDoc_mapReplace_self (rest : List (String × LeaderboardEntry))
    (k : String) (e : LeaderboardEntry)
    (h : (rest.any (fun q => q.1 == k)) = true) :
    getDoc (rest.map (fun q => if q.1 == k then (k, e) else q)) k = some e := by
  induction rest with
  | nil => simp at h
  | cons q rest ih =>
    rw [List.map_cons, getDoc_cons]
    by_cases hq : q.1 = k
    · have hb : (q.1 == k) = true := by simpa using hq
      rw [if_pos hb, if_pos rfl]
    · have hb : ¬ ((q.1 == k) = true) := by simpa using hq
      rw [if_neg hb, if_neg hq]
      have h2 : (rest.any (fun q => q.1 == k)) = true := by
        have h3 := h
        rw [List.any_cons, Bool.or_eq_true] at h3
        rcases h3 with hc | hc
        · exact absurd hc hb
        · exact hc
      exact ih h2

theorem getDoc_upsertEntry_self (lb : List (String × LeaderboardEntry))
    (k : String) (e : LeaderboardEntry) :
    getDoc (upsertEntry lb k e) k = some e := by
  induction lb with
  | nil =>
    rw [upsertEntry_nil, getDoc_cons, if_pos rfl]
  | cons p rest ih =>
    rw [upsertEntry_cons]
    by_cases hp : p.1 = k
    · rw [if_pos hp, getDoc_cons, if_pos rfl]
    · rw [if_neg hp, getDoc_cons, if_neg hp]
      exact ih

theorem getDoc_upsertEntry_ne (lb : List (String × LeaderboardEntry))
    (k k2 : String) (e : LeaderboardEntry) (h : k2 ≠ k) :
    getDoc (upsertEntry lb k e) k2 = getDoc lb k2 := by
  induction lb with
  | nil =>
    rw [upsertEntry_nil, getDoc_cons, if_neg (fun hs => h hs.symm)]
  | cons p rest ih =>
    rw [upsertEntry_cons]
    by_cases hp : p.1 = k
    · rw [if_pos hp, getDoc_cons, getDoc_cons]
      have h1 : ¬ ((k, e).1 = k2) := fun hs => h hs.symm
      have h2 : ¬ (p.1 = k2) := by
        rw [hp]
        exact fun hs => h hs.symm
      rw [if_neg h1, if_neg h2]
      exact getDoc_mapReplace_ne rest k k2 e h
    · rw [if_neg hp, getDoc_cons, getDoc_cons]
      by_cases hp2 : p.1 = k2
      · rw [if_pos hp2, if_pos hp2]
      · rw [if_neg hp2, if_neg hp2]
        exact ih

theorem keys_mapReplace (rest : List (String × LeaderboardEntry))
    (k : String) (e : LeaderboardEntry) :
    (rest.map (fun q => if q.1 == k then (k, e) else q)).map Prod.fst =
      rest.map Prod.fst := by
  induction rest with
  | nil => rfl
  | cons q rest ih =>
    rw [List.map_cons, List.map_cons, List.map_cons, ih]
    by_cases hq : q.1 = k
    · have hb : (q.1 == k) = true := by simpa using hq
      rw [if_pos hb]
      simp [hq]
    · have hb : ¬ ((q.1 == k) = true) := by simpa using hq
      rw [if_neg hb]

theorem mem_keys_upsertEntry (lb : List (String × LeaderboardEntry))
    (k k2 : String) (e : LeaderboardEntry) :
    k2 ∈ (upsertEntry lb k e).map Prod.fst ↔
      k2 ∈ lb.map Prod.fst ∨ k2 = k := by
  induction lb with
  | nil =>
    rw [upsertEntry_nil]
    simp
  | cons p rest ih =>
    rw [upsertEntry_cons]
    by_cases hp : p.1 = k
    · rw [if_pos hp, List.map_cons, keys_mapReplace]
      simp only [List.map_cons, List.mem_cons, hp]
      constructor
      · rintro (hc | hc)
        · exact Or.inr hc
        · exact Or.inl (Or.inr hc)
      · rintro ((hc | hc) | hc)
        · exact Or.inl hc
        · exact Or.inr hc
        · exact Or.inl hc
    · rw [if_neg hp, List.map_cons, List.map_cons]
      simp only [List.mem_cons, ih]
      constructor
      · rintro (hc | hc | hc)
        · exact Or.inl (Or.inl hc)
        · exact Or.inl (Or.inr hc)
        · exact Or.inr hc
      · rintro ((hc | hc) | hc)
        · exact Or.inl hc
        · exact Or.inr (Or.inl hc)
        · exact Or.inr (Or.inr hc)

theorem nodup_keys_upsertEntry (lb : List (String × LeaderboardEntry))
    (k : String) (e : LeaderboardEntry) (h : (lb.map Prod.fst).Nodup) :
    ((upsertEntry lb k e).map Prod.fst).Nodup := by
  induction lb with
  | nil =>
    rw [upsertEntry_nil]
    simp
  | cons p rest ih =>
    rw [List.map_cons] at h
    have h2 := List.nodup_cons.mp h
    rw [upsertEntry_cons]
    by_cases hp : p.1 = k
    · rw [if_pos hp, List.map_cons, keys_mapReplace]
      rw [List.nodup_cons]
      exact ⟨by rw [← hp]; exact h2.1, h2.2⟩
    · rw [if_neg hp, List.map_cons, List.nodup_cons]
      constructor
      · intro hc
        rcases (mem_keys_upsertEntry rest k p.1 e).mp hc with hc2 | hc2
        · exact h2.1 hc2
        · exact hp hc2
      · exact ih h2.2

/-! ### Lemmas about a full rebuild's upsert sequence -/

theorem upsertAll_nil (lb : List (String × LeaderboardEntry)) :
    upsertAll lb [] = lb := rfl

theorem upsertAll_cons (lb : List (String × LeaderboardEntry))
    (p : String × LeaderboardEntry) (es : List (String × LeaderboardEntry)) :
    upsertAll lb (p :: es) = upsertAll (upsertEntry lb p.1 p.2) es := rfl

theorem getDoc_upsertAll_notin (es lb : List (String × LeaderboardEntry))
    (k : String) (h : ∀ p ∈ es, p.1 ≠ k) :
    getDoc (upsertAll lb es) k = getDoc lb k := by
  induction es generalizing lb with
  | nil => rfl
  | cons p es ih =>
    rw [upsertAll_cons, ih _ (fun q hq => h q (List.mem_cons_of_mem p hq))]
    exact getDoc_upsertEntry_ne _ _ _ _ (Ne.symm (h p (List.mem_cons_self p es)))

theorem getDoc_upsertAll_mem (es lb : List (String × LeaderboardEntry))
    (k : String) (e : LeaderboardEntry)
    (hnd : (es.map Prod.fst).Nodup) (hm : (k, e) ∈ es) :
    getDoc (upsertAll lb es) k = some e := by
  induction es generalizing lb with
  | nil => cases hm
  | cons p es ih =>
    rw [List.map_cons] at hnd
    have hnd2 := List.nodup_cons.mp hnd
    rw [upsertAll_cons]
    rcases List.mem_cons.mp hm with heq | hmem
    · have hp1 : p.1 = k := by rw [← heq]
      have hnotin : ∀ q ∈ es, q.1 ≠ k := by
        intro q hq hqk
        exact hnd2.1 (List.mem_map.mpr ⟨q, hq, by rw [hqk, hp1]⟩)
      rw [getDoc_upsertAll_notin es _ k hnotin, ← heq]
      exact getDoc_upsertEntry_self lb k e
    · exact ih _ hnd2.2 hmem

theorem mem_keys_upsertAll (es lb : List (String × LeaderboardEntry)) (k2 : String) :
    k2 ∈ (upsertAll lb es).map Prod.fst ↔
      k2 ∈ lb.map Prod.fst ∨ k2 ∈ es.map Prod.fst := by
  induction es generalizing lb with
  | nil => simp [upsertAll_nil]
  | cons p es ih =>
    rw [upsertAll_cons, ih, mem_keys_upsertEntry, List.map_cons, List.mem_cons]
    constructor
    · rintro ((hc | hc) | hc)
      · exact Or.inl hc
      · exact Or.inr (Or.inl hc)
      · exact Or.inr (Or.inr hc)
    · rintro (hc | hc | hc)
      · exact Or.inl (Or.inl hc)
      · exact Or.inl (Or.inr hc)
      · exact Or.inr hc

theorem nodup_keys_upsertAll (es lb : List (String × LeaderboardEntry))
    (h : (lb.map Prod.fst).Nodup) :
    ((upsertAll lb es).map Prod.fst).Nodup := by
  induction es generalizing lb with
  | nil => exact h
  | cons p es ih =>
    rw [upsertAll_cons]
    exact ih _ (nodup_keys_upsertEntry lb p.1 p.2 h)

theorem countKey_eq_one (lb : List (String × LeaderboardEntry)) (id : String)
    (hnd : (lb.map Prod.fst).Nodup) (hm : id ∈ lb.map Prod.fst) :
    countKey lb id = 1 := by
  induction lb with
  | nil => simp at hm
  | cons p rest ih =>
    rw [List.map_cons] at hnd hm
    have hnd2 := List.nodup_cons.mp hnd
    by_cases hp : p.1 = id
    · have hrest : countKey rest id = 0 := by
        unfold countKey
        rw [List.length_eq_zero, List.filter_eq_nil_iff]
        intro q hq hqb
        have hqk : q.1 = id := by simpa using hqb
        exact hnd2.1 (List.mem_map.mpr ⟨q, hq, by rw [hqk, hp]⟩)
      unfold countKey at hrest ⊢
      rw [List.filter_cons_of_pos (by simpa using hp), List.length_cons, hrest]
    · have hm2 : id ∈ rest.map Prod.fst := by
        rcases List.mem_cons.mp hm with hc | hc
        · exact absurd hc.symm hp
        · exact hc
      unfold countKey
      rw [List.filter_cons_of_neg (by simpa using hp)]
      exact ih hnd2.2 hm2

/-! ### Lemmas about the ranked entries of one rebuild -/

theorem length_rankedEntries (l : List (String × Account)) (r : Nat) :
    (rankedEntries l r).length = l.length := by
  induction l generalizing r with
  | nil => rfl
  | cons p rest ih =>
    obtain ⟨id, a⟩ := p
    simp [rankedEntries, ih]

theorem keys_rankedEntries (l : List (String × Account)) (r : Nat) :
    (rankedEntries l r).map Prod.fst = l.map Prod.fst := by
  induction l generalizing r with
  | nil => rfl
  | cons p rest ih =>
    obtain ⟨id, a⟩ := p
    simp [rankedEntries, ih]

theorem ranks_rankedEntries (l : List (String × Account)) (r : Nat) :
    (rankedEntries l r).map (fun p => p.2.rank) = List.range' r l.length := by
  induction l generalizing r with
  | nil => rfl
  | cons p rest ih =>
    obtain ⟨id, a⟩ := p
    rw [List.length_cons, List.range'_succ]
    simp [rankedEntries, ih]

theorem get_rankedEntries (l : List (String × Account)) (r : Nat) (i : Nat)
    (h2 : i < l.length) (h : i < (rankedEntries l r).length) :
    (rankedEntries l r).get ⟨i, h⟩ =
      ((l.get ⟨i, h2⟩).1,
       { userId := (l.get ⟨i, h2⟩).1, name := (l.get ⟨i, h2⟩).2.name,
         pizzasEaten := (l.get ⟨i, h2⟩).2.pizzasEaten, rank := r + i }) := by
  induction l generalizing r i with
  | nil => exact absurd h2 (Nat.not_lt_zero i)
  | cons p rest ih =>
    obtain ⟨id, a⟩ := p
    cases i with
    | zero => rfl
    | succ n =>
      have h2n : n < rest.length := Nat.lt_of_succ_lt_succ h2
      have hn : n < (rankedEntries rest (r + 1)).length := by
        rw [length_rankedEntries]
        exact h2n
      have hstep :
          (rankedEntries ((id, a) :: rest) r).get ⟨n + 1, h⟩ =
            (rankedEntries rest (r + 1)).get ⟨n, hn⟩ := rfl
      have hstep2 :
          (((id, a) :: rest).get ⟨n + 1, h2⟩) = rest.get ⟨n, h2n⟩ := rfl
      rw [hstep, hstep2, ih (r + 1) n h2n hn]
      have harr : r + 1 + n = r + (n + 1) := by omega
      rw [harr]

/-- C4: after a rebuild over `N` live accounts (with Firestore's unique
document ids), the materialized `leaderboard` holds exactly one entry per
live account — the entry written for it by this rebuild — the ranks
written by the rebuild are exactly the dense sequence `1..N`, and between
any two written entries a strictly larger `pizzasEaten` means a strictly
smaller `rank`. -/
theorem rebuild_dense_ranks (db : DB)
    (hu : (db.users.map Prod.fst).Nodup)
    (hl : (db.leaderboard.map Prod.fst).Nodup) :
    (∀ id a, (id, a) ∈ db.users →
      countKey (update_leaderboard db).leaderboard id = 1 ∧
      ∃ e, (id, e) ∈ rebuildEntries db ∧
        getDoc (update_leaderboard db).leaderboard id = some e) ∧
    (rebuildEntries db).map (fun p => p.2.rank) = List.range' 1 db.users.length ∧
    (∀ i j : Fin (rebuildEntries db).length,
      ((rebuildEntries db).get j).2.pizzasEaten <
        ((rebuildEntries db).get i).2.pizzasEaten →
      ((rebuildEntries db).get i).2.rank < ((rebuildEntries db).get j).2.rank) := by
  have hperm : (sortByEatenDesc db.users).Perm db.users :=
    List.perm_insertionSort eatenGe db.users
  have hkeysperm : ((sortByEatenDesc db.users).map Prod.fst).Perm
      (db.users.map Prod.fst) := hperm.map Prod.fst
  have hsortnodup : ((sortByEatenDesc db.users).map Prod.fst).Nodup :=
    hkeysperm.nodup_iff.mpr hu
  have hkeysre : (rebuildEntries db).map Prod.fst =
      (sortByEatenDesc db.users).map Prod.fst := keys_rankedEntries _ _
  have hrnodup : ((rebuildEntries db).map Prod.fst).Nodup := by
    rw [hkeysre]
    exact hsortnodup
  refine ⟨?_, ?_, ?_⟩
  · intro id a hmem
    have hidkeys : id ∈ db.users.map Prod.fst :=
      List.mem_map.mpr ⟨(id, a), hmem, rfl⟩
    have hidre : id ∈ (rebuildEntries db).map Prod.fst := by
      rw [hkeysre]
      exact hkeysperm.mem_iff.mpr hidkeys
    obtain ⟨p, hp, hp1⟩ := List.mem_map.mp hidre
    have hpe : (id, p.2) ∈ rebuildEntries db := by
      have hpeta : (id, p.2) = p := by
        rw [← hp1]
      rw [hpeta]
      exact hp
    constructor
    · exact countKey_eq_one _ _ (nodup_keys_upsertAll _ _ hl)
        ((mem_keys_upsertAll _ _ _).mpr (Or.inr hidre))
    · exact ⟨p.2, hpe, getDoc_upsertAll_mem _ _ _ _ hrnodup hpe⟩
  · have hr := ranks_rankedEntries (sortByEatenDesc db.users) 1
    rw [hperm.length_eq] at hr
    exact hr
  · intro i j hlt
    have hsorted : (sortByEatenDesc db.users).Pairwise eatenGe :=
      List.sorted_insertionSort eatenGe db.users
    have hlen : (rebuildEntries db).length = (sortByEatenDesc db.users).length :=
      length_rankedEntries _ _
    have hi2 : (i : Nat) < (sortByEatenDesc db.users).length := by
      rw [← hlen]
      exact i.isLt
    have hj2 : (j : Nat) < (sortByEatenDesc db.users).length := by
      rw [← hlen]
      exact j.isLt
    have hgi := get_rankedEntries (sortByEatenDesc db.users) 1 (i : Nat) hi2 i.isLt
    have hgj := get_rankedEntries (sortByEatenDesc db.users) 1 (j : Nat) hj2 j.isLt
    have hgi2 : (rebuildEntries db).get i =
        (rankedEntries (sortByEatenDesc db.users) 1).get ⟨(i : Nat), i.isLt⟩ := rfl
    have hgj2 : (rebuildEntries db).get j =
        (rankedEntries (sortByEatenDesc db.users) 1).get ⟨(j : Nat), j.isLt⟩ := rfl
    rw [hgi2, hgi, hgj2, hgj] at hlt ⊢
    show 1 + (i : Nat) < 1 + (j : Nat)
    rcases Nat.lt_trichotomy (i : Nat) (j : Nat) with hij | hij | hij
    · omega
    · exfalso
      have hfin : (⟨(i : Nat), hi2⟩ : Fin (sortByEatenDesc db.users).length) =
          ⟨(j : Nat), hj2⟩ := Fin.ext hij
      rw [hfin] at hlt
      exact lt_irrefl _ hlt
    · exfalso
      have hpw := List.pairwise_iff_get.mp hsorted ⟨(j : Nat), hj2⟩ ⟨(i : Nat), hi2⟩
        (Fin.mk_lt_mk.mpr hij)
      exact absurd (lt_of_lt_of_le hlt hpw) (lt_irrefl _)

/-- C4 witness: spec Scenario D — accounts with 3 and 5 pizzas eaten get
ranks 2 and 1. -/
theorem rebuild_dense_ranks_witness :
    ((rebuildWitnessDB.users.map Prod.fst).Nodup ∧
      (rebuildWitnessDB.leaderboard.map Prod.fst).Nodup) ∧
    countKey (update_leaderboard rebuildWitnessDB).leaderboard "u1" = 1 ∧
    (rebuildEntries rebuildWitnessDB).map (fun p => p.2.rank) = [1, 2] ∧
    getDoc (update_leaderboard rebuildWitnessDB).leaderboard "u2" =
      some ⟨"u2", "bob", 5, 1⟩ ∧
    getDoc (update_leaderboard rebuildWitnessDB).leaderboard "u1" =
      some ⟨"u1", "dana", 3, 2⟩ := by
  have h := rebuild_dense_ranks rebuildWitnessDB (by decide) (by decide)
  refine ⟨⟨by decide, by decide⟩,
    (h.1 "u1" ⟨"dana", 25, "f", 500, 0, 3⟩ (by decide)).1, ?_, by decide, by decide⟩
  have hr := h.2.1
  exact hr

end PizzaApp
